import Mathlib

set_option maxHeartbeats 1000000
set_option maxRecDepth 4000

/-!
Verification of the inventory construction and serialization core of
`ansibleinv-digitalocean` (do.go): a dynamic Ansible inventory generator
for DigitalOcean droplets.  The builder (`createInventory`) is embedded as
a pure fold over the decoded droplet list, with the Go maps represented as
association lists; the serializer (`printInventory`) is embedded on top of
a JSON value type that models the behaviour of Go's `encoding/json`
marshaller (struct fields in declaration order, map keys sorted, failure
on values that are not representable, such as non-finite floats).
-/

namespace DoInv

/-- Mirror of the Go constant `ansibleGroupPrefix = "do_"` (do.go line 11). -/
def ansibleGroupPfx : String := "do_"

/-- One entry of `Networks.V4` of a droplet (do.go lines 52-57).
The Go field `Type` is renamed `NType` because `Type` is a Lean keyword. -/
structure V4Network where
  IpAddress : String
  Netmask : String
  Gateway : String
  NType : String
deriving DecidableEq

/-- One entry of `Networks.V6` of a droplet (do.go lines 58-63). -/
structure V6Network where
  IpAddress : String
  Netmask : Int
  Gateway : String
  NType : String
deriving DecidableEq

/-- The anonymous `Networks` struct of a droplet (do.go lines 51-64). -/
structure dropletNetworks where
  V4 : List V4Network
  V6 : List V6Network
deriving DecidableEq

/-- The anonymous `Region` struct of a droplet (do.go lines 43-46). -/
structure dropletRegion where
  Slug : String
  Name : String
deriving DecidableEq

/-- A droplet record with the fields relevant for inventory generation
(do.go lines 39-66).  The `Image` sub-struct is omitted: its fields are
unexported in Go and never populated or read. -/
structure droplet where
  Id : Int
  Name : String
  Features : List String
  Region : dropletRegion
  Networks : dropletNetworks
  Tags : List String
deriving DecidableEq

/-- JSON-representable dynamic values, modelling the Go `interface` values
stored in hostvars and group vars and handed to `encoding/json`.
`jnum finite lit` is a numeric value with decimal rendering `lit`;
`finite = false` stands for a non-finite floating value (NaN or an
infinity), which `encoding/json` cannot represent.  `jobj isMap fields`
is an object; `isMap = true` means it came from a Go map (keys are sorted
by the marshaller), `isMap = false` means a Go struct (fields are emitted
in declaration order). -/
inductive JValue where
  | jnull : JValue
  | jbool : Bool → JValue
  | jstr : String → JValue
  | jnum : Bool → String → JValue
  | jarr : List JValue → JValue
  | jobj : Bool → List (String × JValue) → JValue

/-- `ansibleGroup` (do.go lines 81-85): hosts, optional vars, optional
children. -/
structure ansibleGroup where
  Hosts : List String
  Vars : List (String × JValue)
  Children : List String

/-- `ansibleInventory` (do.go lines 71-76).  The two Go maps
(`Groups : map[string]*ansibleGroup` and `Meta.Hostvars :
map[string]interface`) are represented as association lists; lookups and
updates below give them exactly the key-value semantics of Go maps. -/
structure ansibleInventory where
  Groups : List (String × ansibleGroup)
  Hostvars : List (String × List (String × JValue))

/-- Go map read `m[k]`: first (and, with unique keys, only) binding. -/
def lookupA {α : Type} : List (String × α) → String → Option α
  | [], _ => none
  | p :: rest, k => if p.1 = k then some p.2 else lookupA rest k

/-- Go map write `m[k] = v`: replace the binding of `k`, or add one. -/
def updateA {α : Type} : List (String × α) → String → α → List (String × α)
  | [], k, v => [(k, v)]
  | p :: rest, k, v => if p.1 = k then (k, v) :: rest else p :: updateA rest k v

/-- Region/tag grouping step of `createInventory` (do.go lines 155-163 and
167-173): if the group does not exist, create it with the host as its
first member, otherwise append the host to its `Hosts` slice. -/
def addHostToGroup (gs : List (String × ansibleGroup)) (g h : String) :
    List (String × ansibleGroup) :=
  match lookupA gs g with
  | none => updateA gs g { Hosts := [h], Vars := [], Children := [] }
  | some grp => updateA gs g { grp with Hosts := grp.Hosts ++ [h] }

/-- The `ansible_host` scan of `createInventory` (do.go lines 181-187):
walk the droplet's `Networks.V4` slice in order; on the first entry whose
`Type` is "public", set `ansible_host` in the hostvars entry and `break`. -/
def scanV4 (e : List (String × JValue)) : List V4Network → List (String × JValue)
  | [] => e
  | n :: ns =>
    if n.NType = "public" then updateA e "ansible_host" (JValue.jstr n.IpAddress)
    else scanV4 e ns

/-- The body of the droplet loop of `createInventory` (do.go lines
153-188): region grouping, tag grouping, hostvars entry creation, and the
public-IPv4 scan, applied to the inventory under construction. -/
def processDroplet (ai : ansibleInventory) (d : droplet) : ansibleInventory :=
  let gs1 := addHostToGroup ai.Groups (ansibleGroupPfx ++ d.Region.Slug) d.Name
  let gs2 := d.Tags.foldl (fun gs t => addHostToGroup gs (ansibleGroupPfx ++ t) d.Name) gs1
  let hv1 :=
    match lookupA ai.Hostvars d.Name with
    | none => updateA ai.Hostvars d.Name []
    | some _ => ai.Hostvars
  let e := (lookupA hv1 d.Name).getD []
  let hv2 := updateA hv1 d.Name (scanV4 e d.Networks.V4)
  { Groups := gs2, Hostvars := hv2 }

/-- `createInventory` (do.go lines 141-189) restricted to its decision
logic: the fold of the droplet loop over the decoded droplet list,
starting from the empty maps initialized in `main` (do.go lines 218-219).
The fetch and decode steps are the excluded collaborator. -/
def createInventory (ds : List droplet) : ansibleInventory :=
  ds.foldl processDroplet { Groups := [], Hostvars := [] }

/-- The address of the first entry of a `Networks.V4` slice whose `Type`
is "public", if any: the value `ansible_host` is set to by the scan of
do.go lines 181-187. -/
def firstPublicV4 : List V4Network → Option String
  | [] => none
  | n :: ns => if n.NType = "public" then some n.IpAddress else firstPublicV4 ns

/-- Number of occurrences of `k` in a list of strings. -/
def countK : List String → String → Nat
  | [], _ => 0
  | x :: xs, k => (if x = k then 1 else 0) + countK xs k

/-- Number of occurrences of host `h` in the `Hosts` slice of group `g`
(0 when the group does not exist). -/
def hostCount (gs : List (String × ansibleGroup)) (g h : String) : Nat :=
  match lookupA gs g with
  | none => 0
  | some grp => countK grp.Hosts h

/-- Whether a group named `g` exists in the group map. -/
def hasGroup (gs : List (String × ansibleGroup)) (g : String) : Prop :=
  (lookupA gs g).isSome

instance (gs : List (String × ansibleGroup)) (g : String) :
    Decidable (hasGroup gs g) := by
  unfold hasGroup; infer_instance

/-- The keys of an association list. -/
def keysOf {α : Type} (m : List (String × α)) : List String :=
  m.map Prod.fst

/-- The number of memberships one droplet contributes to the `Hosts` slice
of group `g` under hostname `h`: one for its region group, plus one per
occurrence of a tag whose derived group name is `g`. -/
def contrib (d : droplet) (g h : String) : Nat :=
  (if g = ansibleGroupPfx ++ d.Region.Slug ∧ h = d.Name then 1 else 0) +
    (if h = d.Name then countK (d.Tags.map (fun t => ansibleGroupPfx ++ t)) g else 0)

/-- A droplet with its `Networks.V6` slice emptied (used to state that the
builder never reads the IPv6 list). -/
def clearV6 (d : droplet) : droplet :=
  { d with Networks := { V4 := d.Networks.V4, V6 := [] } }

/-- Quote a string for JSON output.  Escaping of special characters is
elided: the strings of this domain (hostnames, group slugs, tags, IP
addresses) contain none. -/
def qstr (s : String) : String := "\"" ++ s ++ "\""

/-- The (constant) message of the marshalling error raised on a value the
wire format cannot represent, modelling `json.UnsupportedValueError`. -/
def umsg : String := "json: unsupported value"

/-- Insert one rendered field into a list sorted by key. -/
def insertPair (p : String × String) : List (String × String) → List (String × String)
  | [] => [p]
  | q :: qs => if p.1 ≤ q.1 then p :: q :: qs else q :: insertPair p qs

/-- Sort rendered fields by key: `encoding/json` emits map keys in sorted
order, which is what pins the byte output of `json.Marshal` on maps. -/
def sortPairs (l : List (String × String)) : List (String × String) :=
  l.foldr insertPair []

mutual

/-- Model of `json.Marshal` (used by `printInventory`, do.go line 205) on
`JValue`: renders a value to its wire bytes, or fails when the structure
holds a value the wire format cannot represent (a non-finite number).
Objects that came from Go maps have their fields emitted in key-sorted
order; struct objects keep declaration order. -/
def marshal : JValue → Except String String
  | .jnull => .ok "null"
  | .jbool b => .ok (if b then "true" else "false")
  | .jstr s => .ok (qstr s)
  | .jnum finite lit => if finite then .ok lit else .error umsg
  | .jarr xs => do
      let ss ← marshalArr xs
      .ok ("[" ++ String.intercalate "," ss ++ "]")
  | .jobj isMap fs => do
      let ps ← marshalFields fs
      let qs := if isMap then sortPairs ps else ps
      .ok ("\x7b" ++ String.intercalate "," (qs.map (fun p => p.2)) ++ "\x7d")

/-- Render the elements of a JSON array. -/
def marshalArr : List JValue → Except String (List String)
  | [] => .ok []
  | x :: xs => do
      let s ← marshal x
      let ss ← marshalArr xs
      .ok (s :: ss)

/-- Render the fields of a JSON object, keeping each field's key alongside
its rendered `"key":value` text so that map objects can be key-sorted. -/
def marshalFields : List (String × JValue) → Except String (List (String × String))
  | [] => .ok []
  | (k, v) :: fs => do
      let s ← marshal v
      let ps ← marshalFields fs
      .ok ((k, qstr k ++ ":" ++ s) :: ps)

end

mutual

/-- Whether a value contains a numeric value that is not representable in
the wire format (a non-finite float). -/
def hasNonfinite : JValue → Bool
  | .jnull => false
  | .jbool _ => false
  | .jstr _ => false
  | .jnum finite _ => !finite
  | .jarr xs => hasNonfiniteArr xs
  | .jobj _ fs => hasNonfiniteFields fs

/-- `hasNonfinite` over the elements of an array. -/
def hasNonfiniteArr : List JValue → Bool
  | [] => false
  | x :: xs => hasNonfinite x || hasNonfiniteArr xs

/-- `hasNonfinite` over the values of an object's fields. -/
def hasNonfiniteFields : List (String × JValue) → Bool
  | [] => false
  | (_, v) :: fs => hasNonfinite v || hasNonfiniteFields fs

end

/-- The JSON value an `ansibleGroup` marshals as (struct field order
`hosts`, `vars`, `children`; the latter two carry `omitempty`, do.go lines
82-84, so they are dropped when empty/nil). -/
def groupToJValue (g : ansibleGroup) : JValue :=
  .jobj false
    ([("hosts", JValue.jarr (g.Hosts.map JValue.jstr))]
      ++ (if g.Vars.isEmpty then [] else [("vars", JValue.jobj true g.Vars)])
      ++ (if g.Children.isEmpty then []
          else [("children", JValue.jarr (g.Children.map JValue.jstr))]))

/-- The top-level value `printInventory` marshals (do.go lines 192-205):
`printMap`, a map holding every group by name plus the reserved `_meta`
key, whose value is the struct holding the `hostvars` map (each hostvars
entry itself a map of variable name to value). -/
def inventoryToJValue (ai : ansibleInventory) : JValue :=
  .jobj true
    ((ai.Groups.map (fun p => (p.1, groupToJValue p.2)))
      ++ [("_meta", JValue.jobj false
            [("hostvars", JValue.jobj true
              (ai.Hostvars.map (fun p => (p.1, JValue.jobj true p.2))))])])

/-- The document bytes `printInventory` writes to stdout (do.go lines
205-210): on a marshalling error the program prints an error message and
exits with status 1 before any byte of the document is written (`none`);
otherwise the full rendered document is written (`some`). -/
def printInventoryOut (ai : ansibleInventory) : Option String :=
  match marshal (inventoryToJValue ai) with
  | .error _ => none
  | .ok s => some s

/-! ### Sample droplets (concrete instantiations of the properties) -/

/-- Sample: two public IPv4 interfaces, in the order of the spec's
first-match example. -/
def dTwoPublic : droplet :=
  { Id := 1, Name := "vps2", Features := [],
    Region := { Slug := "nyc3", Name := "New York 3" },
    Networks :=
      { V4 :=
          [{ IpAddress := "1.2.3.4", Netmask := "255.255.240.0",
             Gateway := "1.2.3.1", NType := "public" },
           { IpAddress := "5.6.7.8", Netmask := "255.255.240.0",
             Gateway := "5.6.7.1", NType := "public" }],
        V6 := [] },
    Tags := ["web"] }

/-- Sample: one public IPv4 interface, one tag, region sfo2. -/
def dOnePublic : droplet :=
  { Id := 2, Name := "vps3", Features := [],
    Region := { Slug := "sfo2", Name := "San Francisco 2" },
    Networks :=
      { V4 :=
          [{ IpAddress := "104.248.0.1", Netmask := "255.255.240.0",
             Gateway := "104.248.0.254", NType := "public" }],
        V6 := [] },
    Tags := ["web"] }

/-- Sample: zero tags and empty network lists. -/
def dNoTags : droplet :=
  { Id := 3, Name := "vps4", Features := [],
    Region := { Slug := "nyc3", Name := "New York 3" },
    Networks := { V4 := [], V6 := [] },
    Tags := [] }

/-- Sample: only a private IPv4 interface, no public interface at all. -/
def dPrivOnly : droplet :=
  { Id := 4, Name := "vps5", Features := [],
    Region := { Slug := "nyc3", Name := "New York 3" },
    Networks :=
      { V4 :=
          [{ IpAddress := "10.0.0.7", Netmask := "255.255.0.0",
             Gateway := "10.0.0.1", NType := "private" }],
        V6 := [] },
    Tags := [] }

/-- Sample: the same tag listed twice. -/
def dDupTag : droplet :=
  { Id := 5, Name := "vps9", Features := [],
    Region := { Slug := "nyc3", Name := "New York 3" },
    Networks := { V4 := [], V6 := [] },
    Tags := ["web", "web"] }

/-- Sample: the only public interface is IPv6; IPv4 has just a private
address. -/
def dV6Only : droplet :=
  { Id := 6, Name := "vps6", Features := [],
    Region := { Slug := "nyc3", Name := "New York 3" },
    Networks :=
      { V4 :=
          [{ IpAddress := "10.0.0.9", Netmask := "255.255.0.0",
             Gateway := "10.0.0.1", NType := "private" }],
        V6 :=
          [{ IpAddress := "2604:a880::1", Netmask := 64,
             Gateway := "2604:a880::", NType := "public" }] },
    Tags := [] }

/-! ### Association-list lemmas -/

theorem lookupA_updateA_self {α : Type} (m : List (String × α)) (k : String) (v : α) :
    lookupA (updateA m k v) k = some v := by
  induction m with
  | nil => simp [updateA, lookupA]
  | cons p rest ih =>
    by_cases h : p.1 = k
    · simp [updateA, h, lookupA]
    · simp [updateA, h, lookupA, ih]

theorem lookupA_updateA_ne {α : Type} (m : List (String × α)) (k k2 : String) (v : α)
    (h : k2 ≠ k) : lookupA (updateA m k v) k2 = lookupA m k2 := by
  have h2 : ¬ k = k2 := fun hh => h hh.symm
  induction m with
  | nil => simp [updateA, lookupA, h2]
  | cons p rest ih =>
    by_cases hp : p.1 = k
    · subst hp
      simp [updateA, lookupA, h2]
    · by_cases hp2 : p.1 = k2
      · simp [updateA, lookupA, hp, hp2, h]
      · simp [updateA, lookupA, hp, hp2, ih]

theorem lookupA_eq_none_iff {α : Type} (m : List (String × α)) (k : String) :
    lookupA m k = none ↔ k ∉ keysOf m := by
  induction m with
  | nil => simp [lookupA, keysOf]
  | cons p rest ih =>
    by_cases h : p.1 = k
    · simp [lookupA, keysOf, h]
    · simp [lookupA, keysOf, h, ih]
      tauto

theorem keysOf_updateA_present {α : Type} (m : List (String × α)) (k : String) (v : α)
    (h : (lookupA m k).isSome) : keysOf (updateA m k v) = keysOf m := by
  induction m with
  | nil => simp [lookupA] at h
  | cons p rest ih =>
    by_cases hp : p.1 = k
    · simp [updateA, hp, keysOf]
    · simp [lookupA, hp] at h
      simp only [updateA, hp, if_false, keysOf, List.map_cons]
      have := ih h
      simp [keysOf] at this
      simp [this]

theorem keysOf_updateA_absent {α : Type} (m : List (String × α)) (k : String) (v : α)
    (h : lookupA m k = none) : keysOf (updateA m k v) = keysOf m ++ [k] := by
  induction m with
  | nil => simp [updateA, keysOf]
  | cons p rest ih =>
    by_cases hp : p.1 = k
    · simp [lookupA, hp] at h
    · simp [lookupA, hp] at h
      simp only [updateA, hp, if_false, keysOf, List.map_cons]
      have := ih h
      simp [keysOf] at this
      simp [this]

/-! ### Counting lemmas -/

theorem countK_append (l1 l2 : List String) (k : String) :
    countK (l1 ++ l2) k = countK l1 k + countK l2 k := by
  induction l1 with
  | nil => simp [countK]
  | cons x xs ih => simp [countK, ih]; omega

theorem countK_eq_zero_of_not_mem (l : List String) (k : String) (h : k ∉ l) :
    countK l k = 0 := by
  induction l with
  | nil => simp [countK]
  | cons x xs ih =>
    simp at h
    have hne : ¬ x = k := fun hh => h.1 hh.symm
    simp [countK, hne, ih h.2]

theorem countK_eq_one_of_nodup (l : List String) (k : String) (h1 : k ∈ l)
    (h2 : l.Nodup) : countK l k = 1 := by
  induction l with
  | nil => simp at h1
  | cons x xs ih =>
    rcases List.nodup_cons.mp h2 with ⟨hx, hxs⟩
    rcases List.mem_cons.mp h1 with h | h
    · subst h
      simp [countK, countK_eq_zero_of_not_mem xs k hx]
    · have hne : x ≠ k := fun hh => hx (hh ▸ h)
      simp [countK, hne, ih h hxs]

theorem countK_perm (l1 l2 : List String) (h : l1.Perm l2) (k : String) :
    countK l1 k = countK l2 k := by
  induction h with
  | nil => rfl
  | cons x _ ih => simp [countK, ih]
  | swap x y l => simp [countK]; omega
  | trans _ _ ih1 ih2 => exact ih1.trans ih2

/-! ### Group membership counting -/

theorem hostCount_addHost (gs : List (String × ansibleGroup)) (g h g2 h2 : String) :
    hostCount (addHostToGroup gs g h) g2 h2 =
      hostCount gs g2 h2 + (if g2 = g ∧ h2 = h then 1 else 0) := by
  cases hx : lookupA gs g with
  | none =>
    by_cases hg : g2 = g
    · subst hg
      have e1 : lookupA (addHostToGroup gs g2 h) g2 =
          some { Hosts := [h], Vars := [], Children := [] } := by
        simp only [addHostToGroup, hx]
        exact lookupA_updateA_self gs g2 _
      unfold hostCount
      rw [e1, hx]
      by_cases hh : h2 = h
      · subst hh; simp [countK]
      · have hh2 : ¬ h = h2 := fun hh3 => hh hh3.symm
        simp [countK, hh, hh2]
    · have e1 : lookupA (addHostToGroup gs g h) g2 = lookupA gs g2 := by
        simp only [addHostToGroup, hx]
        exact lookupA_updateA_ne gs g g2 _ hg
      unfold hostCount
      rw [e1]
      simp [hg]
  | some grp =>
    by_cases hg : g2 = g
    · subst hg
      have e1 : lookupA (addHostToGroup gs g2 h) g2 =
          some { grp with Hosts := grp.Hosts ++ [h] } := by
        simp only [addHostToGroup, hx]
        exact lookupA_updateA_self gs g2 _
      unfold hostCount
      rw [e1, hx]
      simp only [countK_append]
      by_cases hh : h2 = h
      · subst hh; simp [countK]
      · have hh2 : ¬ h = h2 := fun hh3 => hh hh3.symm
        simp [countK, hh, hh2]
    · have e1 : lookupA (addHostToGroup gs g h) g2 = lookupA gs g2 := by
        simp only [addHostToGroup, hx]
        exact lookupA_updateA_ne gs g g2 _ hg
      unfold hostCount
      rw [e1]
      simp [hg]

theorem hostCount_tagFold (ts : List String) (gs : List (String × ansibleGroup))
    (h g2 h2 : String) :
    hostCount (ts.foldl (fun gs2 t => addHostToGroup gs2 (ansibleGroupPfx ++ t) h) gs) g2 h2 =
      hostCount gs g2 h2 +
        (if h2 = h then countK (ts.map (fun t => ansibleGroupPfx ++ t)) g2 else 0) := by
  induction ts generalizing gs with
  | nil => simp [countK]
  | cons t ts ih =>
    simp only [List.foldl_cons, List.map_cons, countK]
    rw [ih, hostCount_addHost]
    by_cases hh : h2 = h
    · by_cases hg : g2 = ansibleGroupPfx ++ t
      · subst hh
        subst hg
        simp
        omega
      · have hg2 : ¬ ansibleGroupPfx ++ t = g2 := fun hh3 => hg hh3.symm
        simp [hh, hg, hg2]
    · simp [hh]

theorem hostCount_processDroplet (ai : ansibleInventory) (d : droplet) (g h : String) :
    hostCount (processDroplet ai d).Groups g h = hostCount ai.Groups g h + contrib d g h := by
  unfold processDroplet contrib
  simp only []
  rw [hostCount_tagFold, hostCount_addHost]
  by_cases hh : h = d.Name
  · by_cases hg : g = ansibleGroupPfx ++ d.Region.Slug
    · simp [hh, hg]; omega
    · simp [hh, hg]
  · simp [hh]

theorem hostCount_fold (ds : List droplet) (ai : ansibleInventory) (g h : String) :
    hostCount ((ds.foldl processDroplet ai)).Groups g h =
      hostCount ai.Groups g h + (ds.map (fun d => contrib d g h)).sum := by
  induction ds generalizing ai with
  | nil => simp
  | cons d ds ih =>
    simp only [List.foldl_cons, List.map_cons, List.sum_cons]
    rw [ih, hostCount_processDroplet]
    omega

theorem hostCount_createInventory (ds : List droplet) (g h : String) :
    hostCount (createInventory ds).Groups g h = (ds.map (fun d => contrib d g h)).sum := by
  unfold createInventory
  rw [hostCount_fold]
  simp [hostCount, lookupA]

/-! ### Group existence -/

theorem hasGroup_addHost (gs : List (String × ansibleGroup)) (g h g2 : String) :
    hasGroup (addHostToGroup gs g h) g2 ↔ hasGroup gs g2 ∨ g2 = g := by
  by_cases hg : g2 = g
  · subst hg
    cases hx : lookupA gs g2 with
    | none =>
      have e1 := lookupA_updateA_self gs g2
          (α := ansibleGroup) { Hosts := [h], Vars := [], Children := [] }
      simp [hasGroup, addHostToGroup, hx, e1]
    | some grp =>
      have e1 := lookupA_updateA_self gs g2
          (α := ansibleGroup) { grp with Hosts := grp.Hosts ++ [h] }
      simp [hasGroup, addHostToGroup, hx, e1]
  · cases hx : lookupA gs g with
    | none =>
      simp [hasGroup, addHostToGroup, hx, lookupA_updateA_ne gs g g2 _ hg, hg]
    | some grp =>
      simp [hasGroup, addHostToGroup, hx, lookupA_updateA_ne gs g g2 _ hg, hg]

theorem hasGroup_tagFold (ts : List String) (gs : List (String × ansibleGroup))
    (h g2 : String) :
    hasGroup (ts.foldl (fun gs2 t => addHostToGroup gs2 (ansibleGroupPfx ++ t) h) gs) g2 ↔
      hasGroup gs g2 ∨ ∃ t ∈ ts, g2 = ansibleGroupPfx ++ t := by
  induction ts generalizing gs with
  | nil => simp
  | cons t ts ih =>
    simp only [List.foldl_cons]
    rw [ih, hasGroup_addHost]
    simp
    tauto

theorem hasGroup_processDroplet (ai : ansibleInventory) (d : droplet) (g : String) :
    hasGroup (processDroplet ai d).Groups g ↔
      hasGroup ai.Groups g ∨ g = ansibleGroupPfx ++ d.Region.Slug ∨
        ∃ t ∈ d.Tags, g = ansibleGroupPfx ++ t := by
  show hasGroup (d.Tags.foldl _ (addHostToGroup ai.Groups _ d.Name)) g ↔ _
  rw [hasGroup_tagFold, hasGroup_addHost]
  tauto

theorem hasGroup_fold (ds : List droplet) (ai : ansibleInventory) (g : String) :
    hasGroup ((ds.foldl processDroplet ai)).Groups g ↔
      hasGroup ai.Groups g ∨ ∃ d ∈ ds, g = ansibleGroupPfx ++ d.Region.Slug ∨
        ∃ t ∈ d.Tags, g = ansibleGroupPfx ++ t := by
  induction ds generalizing ai with
  | nil => simp
  | cons d ds ih =>
    simp only [List.foldl_cons]
    rw [ih, hasGroup_processDroplet]
    simp only [List.mem_cons]
    constructor
    · rintro ((h | h | h) | ⟨d2, hd2, h⟩)
      · exact Or.inl h
      · exact Or.inr ⟨d, Or.inl rfl, Or.inl h⟩
      · exact Or.inr ⟨d, Or.inl rfl, Or.inr h⟩
      · exact Or.inr ⟨d2, Or.inr hd2, h⟩
    · rintro (h | ⟨d2, (hd2 | hd2), h⟩)
      · exact Or.inl (Or.inl h)
      · subst hd2; exact Or.inl (Or.inr h)
      · exact Or.inr ⟨d2, hd2, h⟩

theorem hasGroup_createInventory (ds : List droplet) (g : String) :
    hasGroup (createInventory ds).Groups g ↔
      ∃ d ∈ ds, g = ansibleGroupPfx ++ d.Region.Slug ∨
        ∃ t ∈ d.Tags, g = ansibleGroupPfx ++ t := by
  unfold createInventory
  rw [hasGroup_fold]
  simp [hasGroup, lookupA]

/-! ### Hostvars -/

theorem hostvars_processDroplet_ne (ai : ansibleInventory) (d : droplet) (k : String)
    (h : k ≠ d.Name) :
    lookupA (processDroplet ai d).Hostvars k = lookupA ai.Hostvars k := by
  unfold processDroplet
  cases hx : lookupA ai.Hostvars d.Name with
  | none =>
    simp only [hx]
    rw [lookupA_updateA_ne _ _ _ _ h, lookupA_updateA_ne _ _ _ _ h]
  | some e0 =>
    simp only [hx]
    rw [lookupA_updateA_ne _ _ _ _ h]

theorem hostvars_processDroplet_self (ai : ansibleInventory) (d : droplet) :
    lookupA (processDroplet ai d).Hostvars d.Name =
      some (scanV4 ((lookupA ai.Hostvars d.Name).getD []) d.Networks.V4) := by
  unfold processDroplet
  cases hx : lookupA ai.Hostvars d.Name with
  | none =>
    simp only [hx]
    rw [lookupA_updateA_self, lookupA_updateA_self]
    simp
  | some e0 =>
    simp only [hx]
    rw [lookupA_updateA_self]

theorem hostvars_fold_ne (ds : List droplet) (ai : ansibleInventory) (k : String)
    (h : k ∉ ds.map droplet.Name) :
    lookupA ((ds.foldl processDroplet ai)).Hostvars k = lookupA ai.Hostvars k := by
  induction ds generalizing ai with
  | nil => rfl
  | cons d ds ih =>
    simp only [List.map_cons, List.mem_cons] at h
    push_neg at h
    simp only [List.foldl_cons]
    rw [ih _ h.2, hostvars_processDroplet_ne _ _ _ h.1]

theorem hostvars_fold_self (ds : List droplet) (ai : ansibleInventory) (d : droplet)
    (hd : d ∈ ds) (hnd : (ds.map droplet.Name).Nodup)
    (h0 : lookupA ai.Hostvars d.Name = none) :
    lookupA ((ds.foldl processDroplet ai)).Hostvars d.Name =
      some (scanV4 [] d.Networks.V4) := by
  induction ds generalizing ai with
  | nil => simp at hd
  | cons e es ih =>
    simp only [List.map_cons, List.nodup_cons] at hnd
    rcases List.mem_cons.mp hd with hde | hde
    · subst hde
      simp only [List.foldl_cons]
      rw [hostvars_fold_ne es _ d.Name hnd.1]
      rw [hostvars_processDroplet_self, h0]
      rfl
    · have hne : d.Name ≠ e.Name := by
        intro hh
        exact hnd.1 (hh ▸ List.mem_map_of_mem droplet.Name hde)
      simp only [List.foldl_cons]
      exact ih _ hde hnd.2
        (by rw [hostvars_processDroplet_ne ai e d.Name hne]; exact h0)

theorem hostvars_createInventory_self (ds : List droplet) (d : droplet)
    (hd : d ∈ ds) (hnd : (ds.map droplet.Name).Nodup) :
    lookupA (createInventory ds).Hostvars d.Name = some (scanV4 [] d.Networks.V4) :=
  hostvars_fold_self ds _ d hd hnd rfl

/-! ### Hostvars keys -/

theorem keysOf_processDroplet_absent (ai : ansibleInventory) (d : droplet)
    (hx : lookupA ai.Hostvars d.Name = none) :
    keysOf (processDroplet ai d).Hostvars = keysOf ai.Hostvars ++ [d.Name] := by
  unfold processDroplet
  simp only [hx]
  rw [keysOf_updateA_present _ _ _ (by rw [lookupA_updateA_self]; rfl),
      keysOf_updateA_absent _ _ _ hx]

theorem keysOf_processDroplet_present (ai : ansibleInventory) (d : droplet)
    (e0 : List (String × JValue)) (hx : lookupA ai.Hostvars d.Name = some e0) :
    keysOf (processDroplet ai d).Hostvars = keysOf ai.Hostvars := by
  unfold processDroplet
  simp only [hx]
  rw [keysOf_updateA_present _ _ _ (by rw [hx]; rfl)]

theorem mem_keysOf_fold (ds : List droplet) (ai : ansibleInventory) (k : String) :
    k ∈ keysOf ((ds.foldl processDroplet ai)).Hostvars ↔
      k ∈ keysOf ai.Hostvars ∨ k ∈ ds.map droplet.Name := by
  induction ds generalizing ai with
  | nil => simp
  | cons d ds ih =>
    simp only [List.foldl_cons, List.map_cons, List.mem_cons]
    rw [ih]
    cases hx : lookupA ai.Hostvars d.Name with
    | none =>
      rw [keysOf_processDroplet_absent ai d hx]
      simp only [List.mem_append, List.mem_singleton]
      tauto
    | some e0 =>
      have hmem : d.Name ∈ keysOf ai.Hostvars := by
        by_contra hm
        rw [(lookupA_eq_none_iff _ _).mpr hm] at hx
        cases hx
      rw [keysOf_processDroplet_present ai d e0 hx]
      constructor
      · tauto
      · rintro (h | h | h)
        · exact Or.inl h
        · exact Or.inl (h ▸ hmem)
        · exact Or.inr h

theorem nodup_keysOf_fold (ds : List droplet) (ai : ansibleInventory)
    (h : (keysOf ai.Hostvars).Nodup) :
    (keysOf ((ds.foldl processDroplet ai)).Hostvars).Nodup := by
  induction ds generalizing ai with
  | nil => exact h
  | cons d ds ih =>
    simp only [List.foldl_cons]
    apply ih
    cases hx : lookupA ai.Hostvars d.Name with
    | none =>
      have hm : d.Name ∉ keysOf ai.Hostvars := (lookupA_eq_none_iff _ _).mp hx
      rw [keysOf_processDroplet_absent ai d hx]
      simp [List.nodup_append, h, hm]
    | some e0 =>
      rw [keysOf_processDroplet_present ai d e0 hx]
      exact h

theorem hostvars_exactly_once (ds : List droplet) (d : droplet) (hd : d ∈ ds) :
    countK (keysOf (createInventory ds).Hostvars) d.Name = 1 := by
  apply countK_eq_one_of_nodup
  · exact (mem_keysOf_fold ds _ d.Name).mpr
      (Or.inr (List.mem_map_of_mem droplet.Name hd))
  · exact nodup_keysOf_fold ds _ (by simp [keysOf])

/-! ### The ansible_host scan -/

theorem scanV4_none (e : List (String × JValue)) (l : List V4Network)
    (h : firstPublicV4 l = none) : scanV4 e l = e := by
  induction l with
  | nil => rfl
  | cons n ns ih =>
    by_cases hn : n.NType = "public"
    · simp [firstPublicV4, hn] at h
    · simp only [firstPublicV4, hn, if_false] at h
      simp [scanV4, hn, ih h]

theorem scanV4_some (e : List (String × JValue)) (l : List V4Network) (a : String)
    (h : firstPublicV4 l = some a) :
    scanV4 e l = updateA e "ansible_host" (JValue.jstr a) := by
  induction l with
  | nil => simp [firstPublicV4] at h
  | cons n ns ih =>
    by_cases hn : n.NType = "public"
    · simp only [firstPublicV4, hn, if_pos rfl] at h
      cases h
      simp [scanV4, hn]
    · simp only [firstPublicV4, hn, if_false] at h
      simp [scanV4, hn, ih h]

theorem firstPublicV4_eq_none (l : List V4Network)
    (h : ∀ n ∈ l, n.NType ≠ "public") : firstPublicV4 l = none := by
  induction l with
  | nil => rfl
  | cons n ns ih =>
    have hn : n.NType ≠ "public" := h n (List.mem_cons_self n ns)
    simp only [firstPublicV4, hn, if_false]
    exact ih fun m hm => h m (List.mem_cons_of_mem n hm)

/-! ### String prefixing -/

theorem string_append_left_cancel (a b c : String) (h : a ++ b = a ++ c) : b = c := by
  have h2 : (a ++ b).data = (a ++ c).data := congrArg String.data h
  rw [String.data_append, String.data_append] at h2
  have h3 : b.data = c.data := List.append_cancel_left h2
  cases b with
  | mk db =>
    cases c with
    | mk dc =>
      simp only at h3
      rw [h3]

theorem pfx_ne_meta (s : String) : ansibleGroupPfx ++ s ≠ "_meta" := by
  intro h
  have h2 : (ansibleGroupPfx ++ s).data = "_meta".data := congrArg String.data h
  rw [String.data_append] at h2
  have h3 : ansibleGroupPfx.data = ['d', 'o', '_'] := rfl
  have h4 : "_meta".data = ['_', 'm', 'e', 't', 'a'] := rfl
  rw [h3, h4] at h2
  simp at h2

/-! ### Per-droplet contributions -/

theorem contrib_ne_name (d : droplet) (g h : String) (hne : h ≠ d.Name) :
    contrib d g h = 0 := by
  simp [contrib, hne]

theorem sum_contrib_eq (ds : List droplet) (d : droplet) (g : String)
    (hd : d ∈ ds) (hnd : (ds.map droplet.Name).Nodup) :
    (ds.map (fun x => contrib x g d.Name)).sum = contrib d g d.Name := by
  induction ds with
  | nil => simp at hd
  | cons e es ih =>
    simp only [List.map_cons, List.nodup_cons] at hnd
    simp only [List.map_cons, List.sum_cons]
    rcases List.mem_cons.mp hd with hde | hde
    · subst hde
      have hz : (es.map (fun x => contrib x g d.Name)).sum = 0 := by
        apply List.sum_eq_zero
        intro y hy
        rcases List.mem_map.mp hy with ⟨x, hx, hxy⟩
        have : d.Name ≠ x.Name := by
          intro hh
          exact hnd.1 (hh ▸ List.mem_map_of_mem droplet.Name hx)
        rw [← hxy]
        exact contrib_ne_name x g d.Name this
      rw [hz]
      omega
    · have hne : d.Name ≠ e.Name := by
        intro hh
        exact hnd.1 (hh ▸ List.mem_map_of_mem droplet.Name hde)
      rw [contrib_ne_name e g d.Name hne, ih hde hnd.2]
      omega

theorem countK_map_pfx (ts : List String) (t : String) :
    countK (ts.map (fun x => ansibleGroupPfx ++ x)) (ansibleGroupPfx ++ t) =
      countK ts t := by
  induction ts with
  | nil => rfl
  | cons x xs ih =>
    simp only [List.map_cons, countK, ih]
    by_cases hx : x = t
    · simp [hx]
    · have hx2 : ¬ ansibleGroupPfx ++ x = ansibleGroupPfx ++ t := by
        intro hh
        exact hx (string_append_left_cancel _ _ _ hh)
      simp [hx, hx2]

theorem countK_map_pfx_zero (ts : List String) (g : String)
    (h : ∀ t ∈ ts, ansibleGroupPfx ++ t ≠ g) :
    countK (ts.map (fun x => ansibleGroupPfx ++ x)) g = 0 := by
  apply countK_eq_zero_of_not_mem
  intro hm
  rcases List.mem_map.mp hm with ⟨t, ht, hg⟩
  exact h t ht hg

theorem nat_le_sum_of_mem (l : List Nat) (x : Nat) (hx : x ∈ l) : x ≤ l.sum := by
  induction l with
  | nil => simp at hx
  | cons y ys ih =>
    simp only [List.sum_cons]
    rcases List.mem_cons.mp hx with h | h
    · subst h; omega
    · have := ih h; omega

/-- Shared helper: a droplet whose `Networks.V4` slice has no public entry
gets a hostvars entry with no `ansible_host` key (the IPv6 slice is never
consulted by the scan). -/
theorem no_public_entry (ds : List droplet) (d : droplet)
    (hnd : (ds.map droplet.Name).Nodup) (hd : d ∈ ds)
    (h4 : ∀ n ∈ d.Networks.V4, n.NType ≠ "public") :
    ∃ e, lookupA (createInventory ds).Hostvars d.Name = some e ∧
      lookupA e "ansible_host" = none := by
  refine ⟨scanV4 [] d.Networks.V4, hostvars_createInventory_self ds d hd hnd, ?_⟩
  rw [scanV4_none [] _ (firstPublicV4_eq_none _ h4)]
  rfl

theorem processDroplet_clearV6 (ai : ansibleInventory) (d : droplet) :
    processDroplet ai (clearV6 d) = processDroplet ai d := rfl

theorem foldl_processDroplet_clearV6 (ds : List droplet) (ai : ansibleInventory) :
    List.foldl processDroplet ai (ds.map clearV6) = List.foldl processDroplet ai ds := by
  induction ds generalizing ai with
  | nil => rfl
  | cons d ds ih =>
    simp only [List.map_cons, List.foldl_cons, processDroplet_clearV6]
    exact ih _

theorem createInventory_clearV6 (ds : List droplet) :
    createInventory (ds.map clearV6) = createInventory ds :=
  foldl_processDroplet_clearV6 ds _

/-! ### The claims -/

/-- C1: for every instance, after build, `hostvars[name]["ansible_host"]`
equals the address of the first interface of the instance's IPv4 list
whose visibility indicator is public, and scanning stops at that first
match (first-match wins, not last-match). -/
theorem claim_ansible_host_first_public (ds : List droplet) (d : droplet) (a : String)
    (hnd : (ds.map droplet.Name).Nodup) (hd : d ∈ ds)
    (ha : firstPublicV4 d.Networks.V4 = some a) :
    ∃ e, lookupA (createInventory ds).Hostvars d.Name = some e ∧
      lookupA e "ansible_host" = some (JValue.jstr a) := by
  refine ⟨scanV4 [] d.Networks.V4, hostvars_createInventory_self ds d hd hnd, ?_⟩
  rw [scanV4_some [] _ a ha]
  simp [updateA, lookupA]

/-- C1 witness: the spec's example, interfaces
`[(public, "1.2.3.4"), (public, "5.6.7.8")]` resolve `ansible_host`
to `"1.2.3.4"`. -/
theorem claim_ansible_host_first_public_witness :
    ∃ e, lookupA (createInventory [dTwoPublic]).Hostvars "vps2" = some e ∧
      lookupA e "ansible_host" = some (JValue.jstr "1.2.3.4") :=
  claim_ansible_host_first_public [dTwoPublic] dTwoPublic "1.2.3.4"
    (by decide) (by decide) (by decide)

/-- C2: every instance's display name appears in the host list of exactly
one region group, namely the group named for its own region slug, and this
holds even for instances with zero tags (the hypotheses only rule out tags
colliding with region slugs and duplicate display names). -/
theorem claim_region_membership (ds : List droplet) (d : droplet)
    (hnd : (ds.map droplet.Name).Nodup) (hd : d ∈ ds)
    (hdisj : ∀ s ∈ ds.map (fun x => x.Region.Slug), s ∉ d.Tags) :
    hostCount (createInventory ds).Groups (ansibleGroupPfx ++ d.Region.Slug) d.Name = 1 ∧
      ∀ s ∈ ds.map (fun x => x.Region.Slug), s ≠ d.Region.Slug →
        hostCount (createInventory ds).Groups (ansibleGroupPfx ++ s) d.Name = 0 := by
  have hslug : d.Region.Slug ∈ ds.map (fun x => x.Region.Slug) :=
    List.mem_map_of_mem _ hd
  constructor
  · rw [hostCount_createInventory, sum_contrib_eq ds d _ hd hnd]
    unfold contrib
    have hz : countK (d.Tags.map (fun t => ansibleGroupPfx ++ t))
        (ansibleGroupPfx ++ d.Region.Slug) = 0 := by
      apply countK_map_pfx_zero
      intro t ht hc
      have hts : t = d.Region.Slug := string_append_left_cancel _ _ _ hc
      exact hdisj _ hslug (hts ▸ ht)
    simp [hz]
  · intro s hs hsne
    rw [hostCount_createInventory, sum_contrib_eq ds d _ hd hnd]
    unfold contrib
    have h1 : ¬ ansibleGroupPfx ++ s = ansibleGroupPfx ++ d.Region.Slug :=
      fun hc => hsne (string_append_left_cancel _ _ _ hc)
    have h2 : countK (d.Tags.map (fun t => ansibleGroupPfx ++ t))
        (ansibleGroupPfx ++ s) = 0 := by
      apply countK_map_pfx_zero
      intro t ht hc
      have hts : t = s := string_append_left_cancel _ _ _ hc
      exact hdisj s hs (hts ▸ ht)
    simp [h1, h2]

/-- C2 witness: two instances in different regions, the first with zero
tags; its name lands exactly once in its own region group and zero times
in the other region's group. -/
theorem claim_region_membership_witness :
    hostCount (createInventory [dNoTags, dOnePublic]).Groups
      (ansibleGroupPfx ++ "nyc3") "vps4" = 1 ∧
    ∀ s ∈ ([dNoTags, dOnePublic] : List droplet).map (fun x => x.Region.Slug),
      s ≠ "nyc3" →
        hostCount (createInventory [dNoTags, dOnePublic]).Groups
          (ansibleGroupPfx ++ s) "vps4" = 0 :=
  claim_region_membership [dNoTags, dOnePublic] dNoTags
    (by decide) (by decide) (by decide)

/-- C3: for every occurrence of a tag on an instance, the display name
appears in that tag's group exactly once per occurrence — the host list
count equals the occurrence count of the tag, so repeated tags are not
deduplicated. -/
theorem claim_tag_membership (ds : List droplet) (d : droplet) (t : String)
    (hnd : (ds.map droplet.Name).Nodup) (hd : d ∈ ds) (ht : t ∈ d.Tags)
    (hne : t ≠ d.Region.Slug) :
    hostCount (createInventory ds).Groups (ansibleGroupPfx ++ t) d.Name =
      countK d.Tags t := by
  rw [hostCount_createInventory, sum_contrib_eq ds d _ hd hnd]
  unfold contrib
  have h1 : ¬ ansibleGroupPfx ++ t = ansibleGroupPfx ++ d.Region.Slug :=
    fun hc => hne (string_append_left_cancel _ _ _ hc)
  simp [h1, countK_map_pfx]

/-- C3 witness: a droplet tagged `["web", "web"]` (the same tag twice)
appears in the `do_web` host list once per occurrence, that is, twice. -/
theorem claim_tag_membership_witness :
    hostCount (createInventory [dDupTag]).Groups
      (ansibleGroupPfx ++ "web") "vps9" = 2 :=
  claim_tag_membership [dDupTag] dDupTag "web"
    (by decide) (by decide) (by decide) (by decide)

/-- C4: an instance with no public-visibility interface (neither IPv4 nor
IPv6) still gets a hostvars entry, that entry has no `ansible_host` key,
and every instance's display name appears exactly once in the hostvars
mapping. -/
theorem claim_no_public_no_ansible_host (ds : List droplet) (d : droplet)
    (hnd : (ds.map droplet.Name).Nodup) (hd : d ∈ ds)
    (h4 : ∀ n ∈ d.Networks.V4, n.NType ≠ "public")
    (h6 : ∀ n ∈ d.Networks.V6, n.NType ≠ "public") :
    (∃ e, lookupA (createInventory ds).Hostvars d.Name = some e ∧
        lookupA e "ansible_host" = none) ∧
      ∀ d2 ∈ ds, countK (keysOf (createInventory ds).Hostvars) d2.Name = 1 := by
  constructor
  · exact no_public_entry ds d hnd hd h4
  · intro d2 hd2
    exact hostvars_exactly_once ds d2 hd2

/-- C4 witness: a droplet with only a private IPv4 address gets an entry
with no `ansible_host`, and names appear exactly once in hostvars. -/
theorem claim_no_public_no_ansible_host_witness :
    (∃ e, lookupA (createInventory [dPrivOnly]).Hostvars "vps5" = some e ∧
        lookupA e "ansible_host" = none) ∧
      ∀ d2 ∈ ([dPrivOnly] : List droplet),
        countK (keysOf (createInventory [dPrivOnly]).Hostvars) d2.Name = 1 :=
  claim_no_public_no_ansible_host [dPrivOnly] dPrivOnly
    (by decide) (by decide) (by decide) (by decide)

/-- C5: building a permutation of the input yields the same group-to-host
memberships: the same groups exist and every (group, host) multiplicity
agrees, so in particular the host sets of every group coincide. -/
theorem claim_build_order_independent (ds ds2 : List droplet) (hp : ds.Perm ds2) :
    (∀ g h, hostCount (createInventory ds).Groups g h =
        hostCount (createInventory ds2).Groups g h) ∧
      ∀ g, hasGroup (createInventory ds).Groups g ↔
        hasGroup (createInventory ds2).Groups g := by
  constructor
  · intro g h
    rw [hostCount_createInventory, hostCount_createInventory]
    exact List.Perm.sum_eq (hp.map _)
  · intro g
    rw [hasGroup_createInventory, hasGroup_createInventory]
    constructor
    · rintro ⟨d, hd, h⟩
      exact ⟨d, hp.mem_iff.mp hd, h⟩
    · rintro ⟨d, hd, h⟩
      exact ⟨d, hp.mem_iff.mpr hd, h⟩

/-- C5 witness: swapping two droplets leaves every group's membership
counts and the set of existing groups unchanged. -/
theorem claim_build_order_independent_witness :
    (∀ g h, hostCount (createInventory [dTwoPublic, dOnePublic]).Groups g h =
        hostCount (createInventory [dOnePublic, dTwoPublic]).Groups g h) ∧
      ∀ g, hasGroup (createInventory [dTwoPublic, dOnePublic]).Groups g ↔
        hasGroup (createInventory [dOnePublic, dTwoPublic]).Groups g :=
  claim_build_order_independent [dTwoPublic, dOnePublic] [dOnePublic, dTwoPublic]
    (List.Perm.swap dOnePublic dTwoPublic [])

/-- C6: every group key of the built inventory is the fixed prefix "do_"
followed verbatim by a region slug or tag string taken from the input, and
hence no group key ever equals the reserved key "_meta". -/
theorem claim_group_names_prefixed (ds : List droplet) (g : String)
    (hg : hasGroup (createInventory ds).Groups g) :
    (∃ s, g = "do_" ++ s ∧ ∃ d ∈ ds, s = d.Region.Slug ∨ s ∈ d.Tags) ∧
      g ≠ "_meta" := by
  rcases (hasGroup_createInventory ds g).mp hg with ⟨d, hd, hcase⟩
  have hgform : ∃ s, g = ansibleGroupPfx ++ s ∧
      ∃ d2 ∈ ds, s = d2.Region.Slug ∨ s ∈ d2.Tags := by
    rcases hcase with h | ⟨t, ht, h⟩
    · exact ⟨d.Region.Slug, h, d, hd, Or.inl rfl⟩
    · exact ⟨t, h, d, hd, Or.inr ht⟩
  rcases hgform with ⟨s, hs, hrest⟩
  refine ⟨⟨s, hs, hrest⟩, ?_⟩
  rw [hs]
  exact pfx_ne_meta s

/-- C6 witness: the group `do_nyc3` exists for a nyc3 droplet, is the
prefix plus a slug from the input, and is not `_meta`. -/
theorem claim_group_names_prefixed_witness :
    (∃ s, "do_nyc3" = "do_" ++ s ∧
        ∃ d ∈ ([dTwoPublic] : List droplet), s = d.Region.Slug ∨ s ∈ d.Tags) ∧
      "do_nyc3" ≠ "_meta" :=
  claim_group_names_prefixed [dTwoPublic] "do_nyc3" (by decide)

/-- C9: the builder is total and drops no instance: for every input
sequence (including instances with empty tag or network lists), every
instance ends up with a hostvars entry and at least one membership in its
region group; being a pure Lean function, the embedded builder performs no
I/O and has no failure path. -/
theorem claim_builder_total_no_drop (ds : List droplet) (d : droplet) (hd : d ∈ ds) :
    (∃ e, lookupA (createInventory ds).Hostvars d.Name = some e) ∧
      1 ≤ hostCount (createInventory ds).Groups
        (ansibleGroupPfx ++ d.Region.Slug) d.Name := by
  constructor
  · have hm : d.Name ∈ keysOf (createInventory ds).Hostvars :=
      (mem_keysOf_fold ds _ d.Name).mpr (Or.inr (List.mem_map_of_mem droplet.Name hd))
    cases hx : lookupA (createInventory ds).Hostvars d.Name with
    | none => exact absurd hm ((lookupA_eq_none_iff _ _).mp hx)
    | some e => exact ⟨e, rfl⟩
  · rw [hostCount_createInventory]
    have h1 : 1 ≤ contrib d (ansibleGroupPfx ++ d.Region.Slug) d.Name := by
      unfold contrib
      have hc : ansibleGroupPfx ++ d.Region.Slug = ansibleGroupPfx ++ d.Region.Slug ∧
          d.Name = d.Name := ⟨rfl, rfl⟩
      rw [if_pos hc]
      omega
    exact le_trans h1 (nat_le_sum_of_mem _ _
      (List.mem_map_of_mem (fun x => contrib x (ansibleGroupPfx ++ d.Region.Slug) d.Name) hd))

/-- C9 witness: a droplet with zero tags and empty network lists is not
dropped: it gets a hostvars entry and a region-group membership. -/
theorem claim_builder_total_no_drop_witness :
    (∃ e, lookupA (createInventory [dNoTags]).Hostvars "vps4" = some e) ∧
      1 ≤ hostCount (createInventory [dNoTags]).Groups
        (ansibleGroupPfx ++ "nyc3") "vps4" :=
  claim_builder_total_no_drop [dNoTags] dNoTags (by decide)

/-- C10: `ansible_host` is only ever assigned from the IPv4 interface
list: the builder's output does not depend on the IPv6 lists at all, and
an instance whose IPv4 list has no public entry gets no `ansible_host`
key even when a public IPv6 interface exists. -/
theorem claim_ansible_host_ipv4_only (ds : List droplet) (d : droplet)
    (hnd : (ds.map droplet.Name).Nodup) (hd : d ∈ ds)
    (h4 : ∀ n ∈ d.Networks.V4, n.NType ≠ "public") :
    createInventory ds = createInventory (ds.map clearV6) ∧
      ∃ e, lookupA (createInventory ds).Hostvars d.Name = some e ∧
        lookupA e "ansible_host" = none := by
  constructor
  · exact (createInventory_clearV6 ds).symm
  · exact no_public_entry ds d hnd hd h4

/-- C10 witness: a droplet whose only public interface is IPv6 gets no
`ansible_host` key, and emptying the IPv6 lists changes nothing. -/
theorem claim_ansible_host_ipv4_only_witness :
    createInventory [dV6Only] = createInventory ([dV6Only].map clearV6) ∧
      ∃ e, lookupA (createInventory [dV6Only]).Hostvars "vps6" = some e ∧
        lookupA e "ansible_host" = none :=
  claim_ansible_host_ipv4_only [dV6Only] dV6Only
    (by decide) (by decide) (by decide)

/-! ### Marshalling: failure propagation -/

theorem except_bind_error {α β : Type} (e : String) (f : α → Except String β) :
    (Except.error e >>= f : Except String β) = Except.error e := rfl

theorem except_bind_ok {α β : Type} (a : α) (f : α → Except String β) :
    (Except.ok a >>= f : Except String β) = f a := rfl

mutual

theorem marshal_error : ∀ (v : JValue) (e : String),
    marshal v = Except.error e → e = umsg
  | .jnull, e, h => by simp [marshal] at h
  | .jbool b, e, h => by simp [marshal] at h
  | .jstr s, e, h => by simp [marshal] at h
  | .jnum finite lit, e, h => by
    cases finite
    · simp [marshal] at h
      exact h.symm
    · simp [marshal] at h
  | .jarr xs, e, h => by
    cases hm : marshalArr xs with
    | error e2 =>
      simp only [marshal, hm, except_bind_error] at h
      cases h
      exact marshalArr_error xs _ hm
    | ok ss => simp [marshal, hm, except_bind_ok] at h
  | .jobj b fs, e, h => by
    cases hm : marshalFields fs with
    | error e2 =>
      simp only [marshal, hm, except_bind_error] at h
      cases h
      exact marshalFields_error fs _ hm
    | ok ps => simp [marshal, hm, except_bind_ok] at h

theorem marshalArr_error : ∀ (xs : List JValue) (e : String),
    marshalArr xs = Except.error e → e = umsg
  | [], e, h => by simp [marshalArr] at h
  | x :: xs, e, h => by
    cases hmx : marshal x with
    | error e2 =>
      simp only [marshalArr, hmx, except_bind_error] at h
      cases h
      exact marshal_error x _ hmx
    | ok s =>
      cases hms : marshalArr xs with
      | error e2 =>
        simp only [marshalArr, hmx, hms, except_bind_ok, except_bind_error] at h
        cases h
        exact marshalArr_error xs _ hms
      | ok ss => simp [marshalArr, hmx, hms, except_bind_ok] at h

theorem marshalFields_error : ∀ (fs : List (String × JValue)) (e : String),
    marshalFields fs = Except.error e → e = umsg
  | [], e, h => by simp [marshalFields] at h
  | (k, v) :: fs, e, h => by
    cases hmv : marshal v with
    | error e2 =>
      simp only [marshalFields, hmv, except_bind_error] at h
      cases h
      exact marshal_error v _ hmv
    | ok s =>
      cases hms : marshalFields fs with
      | error e2 =>
        simp only [marshalFields, hmv, hms, except_bind_ok, except_bind_error] at h
        cases h
        exact marshalFields_error fs _ hms
      | ok ps => simp [marshalFields, hmv, hms, except_bind_ok] at h

end

mutual

theorem marshal_nonfinite : ∀ (v : JValue),
    hasNonfinite v = true → marshal v = Except.error umsg
  | .jnull, h => by simp [hasNonfinite] at h
  | .jbool b, h => by simp [hasNonfinite] at h
  | .jstr s, h => by simp [hasNonfinite] at h
  | .jnum finite lit, h => by
    cases finite
    · simp [marshal]
    · simp [hasNonfinite] at h
  | .jarr xs, h => by
    have h2 : hasNonfiniteArr xs = true := by simpa [hasNonfinite] using h
    simp only [marshal, marshalArr_nonfinite xs h2, except_bind_error]
  | .jobj b fs, h => by
    have h2 : hasNonfiniteFields fs = true := by simpa [hasNonfinite] using h
    simp only [marshal, marshalFields_nonfinite fs h2, except_bind_error]

theorem marshalArr_nonfinite : ∀ (xs : List JValue),
    hasNonfiniteArr xs = true → marshalArr xs = Except.error umsg
  | [], h => by simp [hasNonfiniteArr] at h
  | x :: xs, h => by
    have h2 : hasNonfinite x = true ∨ hasNonfiniteArr xs = true := by
      simpa [hasNonfiniteArr, Bool.or_eq_true] using h
    cases hmx : marshal x with
    | error e =>
      have he : e = umsg := marshal_error x e hmx
      simp only [marshalArr, hmx, except_bind_error, he]
    | ok s =>
      have h3 : hasNonfiniteArr xs = true := by
        rcases h2 with h2 | h2
        · rw [marshal_nonfinite x h2] at hmx
          cases hmx
        · exact h2
      simp only [marshalArr, hmx, except_bind_ok,
        marshalArr_nonfinite xs h3, except_bind_error]

theorem marshalFields_nonfinite : ∀ (fs : List (String × JValue)),
    hasNonfiniteFields fs = true → marshalFields fs = Except.error umsg
  | [], h => by simp [hasNonfiniteFields] at h
  | (k, v) :: fs, h => by
    have h2 : hasNonfinite v = true ∨ hasNonfiniteFields fs = true := by
      simpa [hasNonfiniteFields, Bool.or_eq_true] using h
    cases hmv : marshal v with
    | error e =>
      have he : e = umsg := marshal_error v e hmv
      simp only [marshalFields, hmv, except_bind_error, he]
    | ok s =>
      have h3 : hasNonfiniteFields fs = true := by
        rcases h2 with h2 | h2
        · rw [marshal_nonfinite v h2] at hmv
          cases hmv
        · exact h2
      simp only [marshalFields, hmv, except_bind_ok,
        marshalFields_nonfinite fs h3, except_bind_error]

end

/-- C7: if any value in the inventory structure is not representable in
the wire format (a non-finite numeric value), marshalling the whole
document fails with the serialization error, and no byte of the document
is emitted (atomic failure: the program prints an error and exits 1
before the document write). -/
theorem claim_serialization_atomic_failure (ai : ansibleInventory)
    (h : hasNonfinite (inventoryToJValue ai) = true) :
    marshal (inventoryToJValue ai) = Except.error umsg ∧
      printInventoryOut ai = none := by
  have hm := marshal_nonfinite _ h
  refine ⟨hm, ?_⟩
  unfold printInventoryOut
  rw [hm]

/-- C7 witness: an inventory with a NaN hostvar value marshals to the
serialization error and emits no document bytes. -/
theorem claim_serialization_atomic_failure_witness :
    marshal (inventoryToJValue
        { Groups := [],
          Hostvars := [("vps7", [("score", JValue.jnum false "NaN")])] }) =
        Except.error umsg ∧
      printInventoryOut
        { Groups := [],
          Hostvars := [("vps7", [("score", JValue.jnum false "NaN")])] } = none :=
  claim_serialization_atomic_failure _
    (by simp [inventoryToJValue, hasNonfinite, hasNonfiniteFields])

/-! ### Marshalling: determinism over map iteration order -/

theorem marshalFields_keys : ∀ (fs : List (String × JValue)) (ps : List (String × String)),
    marshalFields fs = Except.ok ps → ps.map Prod.fst = fs.map Prod.fst
  | [], ps, h => by
    simp only [marshalFields] at h
    cases h
    rfl
  | (k, v) :: fs, ps, h => by
    cases hmv : marshal v with
    | error e => simp [marshalFields, hmv, except_bind_error] at h
    | ok s =>
      cases hms : marshalFields fs with
      | error e => simp [marshalFields, hmv, hms, except_bind_ok, except_bind_error] at h
      | ok ps2 =>
        simp only [marshalFields, hmv, hms, except_bind_ok] at h
        cases h
        simp [marshalFields_keys fs ps2 hms]

theorem marshalFields_perm_ok (fs1 fs2 : List (String × JValue)) (hp : fs1.Perm fs2) :
    ∀ ps1, marshalFields fs1 = Except.ok ps1 →
      ∃ ps2, marshalFields fs2 = Except.ok ps2 ∧ ps1.Perm ps2 := by
  induction hp with
  | nil =>
    intro ps1 h
    exact ⟨ps1, h, List.Perm.refl ps1⟩
  | cons p hp2 ih =>
    rename_i l1 l2
    obtain ⟨k, v⟩ := p
    intro ps1 h
    cases hmv : marshal v with
    | error e => simp [marshalFields, hmv, except_bind_error] at h
    | ok s =>
      cases hms : marshalFields l1 with
      | error e => simp [marshalFields, hmv, hms, except_bind_ok, except_bind_error] at h
      | ok qs1 =>
        simp only [marshalFields, hmv, hms, except_bind_ok] at h
        cases h
        rcases ih qs1 hms with ⟨qs2, hq2, hqperm⟩
        refine ⟨(k, qstr k ++ ":" ++ s) :: qs2, ?_, List.Perm.cons _ hqperm⟩
        simp only [marshalFields, hmv, hq2, except_bind_ok]
  | swap x y l =>
    obtain ⟨ky, vy⟩ := y
    obtain ⟨kx, vx⟩ := x
    intro ps1 h
    cases hmy : marshal vy with
    | error e => simp [marshalFields, hmy, except_bind_error] at h
    | ok sy =>
      cases hmx : marshal vx with
      | error e =>
        simp [marshalFields, hmy, hmx, except_bind_ok, except_bind_error] at h
      | ok sx =>
        cases hml : marshalFields l with
        | error e =>
          simp [marshalFields, hmy, hmx, hml, except_bind_ok, except_bind_error] at h
        | ok qs =>
          simp only [marshalFields, hmy, hmx, hml, except_bind_ok] at h
          cases h
          refine ⟨(kx, qstr kx ++ ":" ++ sx) :: (ky, qstr ky ++ ":" ++ sy) :: qs, ?_,
            List.Perm.swap _ _ _⟩
          simp only [marshalFields, hmx, hmy, hml, except_bind_ok]
  | trans hp1 hp2 ih1 ih2 =>
    intro ps1 h
    rcases ih1 ps1 h with ⟨ps2, h2, hp12⟩
    rcases ih2 ps2 h2 with ⟨ps3, h3, hp23⟩
    exact ⟨ps3, h3, hp12.trans hp23⟩

theorem insertPair_perm (p : String × String) (l : List (String × String)) :
    (insertPair p l).Perm (p :: l) := by
  induction l with
  | nil => exact List.Perm.refl _
  | cons q qs ih =>
    by_cases h : p.1 ≤ q.1
    · simp only [insertPair, h, if_true]
      exact List.Perm.refl _
    · simp only [insertPair, h, if_false]
      exact (List.Perm.cons q ih).trans (List.Perm.swap p q qs)

theorem sortPairs_perm (l : List (String × String)) : (sortPairs l).Perm l := by
  induction l with
  | nil => exact List.Perm.refl _
  | cons x xs ih =>
    have h1 : sortPairs (x :: xs) = insertPair x (sortPairs xs) := rfl
    rw [h1]
    exact (insertPair_perm x (sortPairs xs)).trans (List.Perm.cons x ih)

theorem mem_insertPair (p q : String × String) (l : List (String × String))
    (h : q ∈ insertPair p l) : q = p ∨ q ∈ l := by
  have := (insertPair_perm p l).mem_iff.mp h
  simpa using this

theorem insertPair_sorted (p : String × String) (l : List (String × String))
    (h : l.Pairwise (fun a b : String × String => a.1 ≤ b.1)) :
    (insertPair p l).Pairwise (fun a b : String × String => a.1 ≤ b.1) := by
  induction l with
  | nil => simp [insertPair]
  | cons q qs ih =>
    rcases List.pairwise_cons.mp h with ⟨hq, hqs⟩
    by_cases hle : p.1 ≤ q.1
    · simp only [insertPair, hle, if_true]
      refine List.pairwise_cons.mpr ⟨?_, h⟩
      intro r hr
      rcases List.mem_cons.mp hr with h2 | h2
      · rw [h2]
        exact hle
      · exact hle.trans (hq r h2)
    · simp only [insertPair, hle, if_false]
      refine List.pairwise_cons.mpr ⟨?_, ih hqs⟩
      intro r hr
      rcases mem_insertPair p r qs hr with h2 | h2
      · rw [h2]
        exact le_of_not_le hle
      · exact hq r h2

theorem sortPairs_sorted (l : List (String × String)) :
    (sortPairs l).Pairwise (fun a b : String × String => a.1 ≤ b.1) := by
  induction l with
  | nil => simp [sortPairs]
  | cons x xs ih =>
    have h1 : sortPairs (x :: xs) = insertPair x (sortPairs xs) := rfl
    rw [h1]
    exact insertPair_sorted x (sortPairs xs) ih

theorem sortPairs_eq_of_perm (l1 l2 : List (String × String)) (hp : l1.Perm l2)
    (hn : (l1.map Prod.fst).Nodup) : sortPairs l1 = sortPairs l2 := by
  have hperm : (sortPairs l1).Perm (sortPairs l2) :=
    (sortPairs_perm l1).trans (hp.trans (sortPairs_perm l2).symm)
  have hn1 : ((sortPairs l1).map Prod.fst).Nodup := by
    have hpk : ((sortPairs l1).map Prod.fst).Perm (l1.map Prod.fst) :=
      (sortPairs_perm l1).map _
    exact hpk.nodup_iff.mpr hn
  have hn2 : ((sortPairs l2).map Prod.fst).Nodup := by
    have hpk : ((sortPairs l1).map Prod.fst).Perm ((sortPairs l2).map Prod.fst) :=
      hperm.map _
    exact hpk.nodup_iff.mp hn1
  have hs1 : (sortPairs l1).Pairwise (fun a b : String × String => a.1 < b.1) := by
    have hA := sortPairs_sorted l1
    have hB : (sortPairs l1).Pairwise (fun a b : String × String => a.1 ≠ b.1) :=
      List.pairwise_map.mp hn1
    exact (hA.and hB).imp fun hab => lt_of_le_of_ne hab.1 hab.2
  have hs2 : (sortPairs l2).Pairwise (fun a b : String × String => a.1 < b.1) := by
    have hA := sortPairs_sorted l2
    have hB : (sortPairs l2).Pairwise (fun a b : String × String => a.1 ≠ b.1) :=
      List.pairwise_map.mp hn2
    exact (hA.and hB).imp fun hab => lt_of_le_of_ne hab.1 hab.2
  haveI : IsAntisymm (String × String) (fun a b : String × String => a.1 < b.1) :=
    ⟨fun a b h1 h2 => absurd (h1.trans h2) (lt_irrefl _)⟩
  exact List.eq_of_perm_of_sorted hperm hs1 hs2

theorem marshal_jobj_congr (b : Bool) (fs1 fs2 : List (String × JValue))
    (h : marshalFields fs1 = marshalFields fs2) :
    marshal (JValue.jobj b fs1) = marshal (JValue.jobj b fs2) := by
  simp only [marshal]
  rw [h]

theorem marshal_jobj_map_perm (fs1 fs2 : List (String × JValue)) (hp : fs1.Perm fs2)
    (hn : (fs1.map Prod.fst).Nodup) :
    marshal (JValue.jobj true fs1) = marshal (JValue.jobj true fs2) := by
  cases h1 : marshalFields fs1 with
  | error e =>
    cases h2 : marshalFields fs2 with
    | error e2 =>
      have he : e = umsg := marshalFields_error fs1 e h1
      have he2 : e2 = umsg := marshalFields_error fs2 e2 h2
      simp only [marshal, h1, h2, except_bind_error, he, he2]
    | ok ps2 =>
      rcases marshalFields_perm_ok fs2 fs1 hp.symm ps2 h2 with ⟨ps1, h1b, -⟩
      rw [h1b] at h1
      cases h1
  | ok ps1 =>
    rcases marshalFields_perm_ok fs1 fs2 hp ps1 h1 with ⟨ps2, h2, hpp⟩
    have hk1 := marshalFields_keys fs1 ps1 h1
    have hs : sortPairs ps1 = sortPairs ps2 :=
      sortPairs_eq_of_perm ps1 ps2 hpp (by rw [hk1]; exact hn)
    simp only [marshal, h1, h2, except_bind_ok, if_true]
    rw [hs]

theorem marshalFields_congr : ∀ (fs1 fs2 : List (String × JValue)),
    List.Forall₂ (fun p q : String × JValue =>
      p.1 = q.1 ∧ marshal p.2 = marshal q.2) fs1 fs2 →
    marshalFields fs1 = marshalFields fs2
  | [], [], _ => rfl
  | [], _ :: _, h => nomatch h
  | _ :: _, [], h => nomatch h
  | (k1, v1) :: fs1, (k2, v2) :: fs2, h => by
    cases h with
    | cons h1 h2 =>
      obtain ⟨hk, hv⟩ := h1
      have hk2 : k1 = k2 := hk
      have hv2 : marshal v1 = marshal v2 := hv
      simp only [marshalFields]
      rw [hk2, hv2, marshalFields_congr fs1 fs2 h2]

theorem forall2_append_single {R : (String × JValue) → (String × JValue) → Prop}
    (l : List (String × JValue)) (hrefl : ∀ x ∈ l, R x x)
    (p q : String × JValue) (hpq : R p q) :
    List.Forall₂ R (l ++ [p]) (l ++ [q]) := by
  induction l with
  | nil => exact List.Forall₂.cons hpq List.Forall₂.nil
  | cons x xs ih =>
    exact List.Forall₂.cons (hrefl x (List.mem_cons_self x xs))
      (ih fun y hy => hrefl y (List.mem_cons_of_mem x hy))

theorem printInventory_marshal_eq (g1 g2 : List (String × ansibleGroup))
    (m1 m2 : JValue) (hp : g1.Perm g2) (hn : (g1.map Prod.fst).Nodup)
    (hm : "_meta" ∉ g1.map Prod.fst) (hmm : marshal m1 = marshal m2) :
    marshal (JValue.jobj true
        (g1.map (fun p => (p.1, groupToJValue p.2)) ++ [("_meta", m1)])) =
      marshal (JValue.jobj true
        (g2.map (fun p => (p.1, groupToJValue p.2)) ++ [("_meta", m2)])) := by
  have hkeys : (g1.map (fun p => (p.1, groupToJValue p.2)) ++ [("_meta", m1)]).map
      Prod.fst = g1.map Prod.fst ++ ["_meta"] := by
    simp [List.map_map, Function.comp]
  have hstep1 : marshal (JValue.jobj true
      (g1.map (fun p => (p.1, groupToJValue p.2)) ++ [("_meta", m1)])) =
      marshal (JValue.jobj true
      (g2.map (fun p => (p.1, groupToJValue p.2)) ++ [("_meta", m1)])) := by
    apply marshal_jobj_map_perm
    · exact List.Perm.append_right _ (hp.map _)
    · rw [hkeys, List.nodup_append]
      refine ⟨hn, List.nodup_singleton _, ?_⟩
      intro a ha hb
      rcases List.mem_singleton.mp hb with rfl
      exact hm ha
  have hstep2 : marshal (JValue.jobj true
      (g2.map (fun p => (p.1, groupToJValue p.2)) ++ [("_meta", m1)])) =
      marshal (JValue.jobj true
      (g2.map (fun p => (p.1, groupToJValue p.2)) ++ [("_meta", m2)])) := by
    apply marshal_jobj_congr
    apply marshalFields_congr
    exact forall2_append_single _ (fun x _ => ⟨rfl, rfl⟩) _ _ ⟨rfl, hmm⟩
  exact hstep1.trans hstep2

/-- C8: serialization is a deterministic function of the inventory's map
contents with pinned key ordering: any two iteration orders of the same
group map and the same hostvars map (the only non-determinism between two
serializations of one inventory) produce byte-identical output. -/
theorem claim_serialization_deterministic (ai1 ai2 : ansibleInventory)
    (hg : ai1.Groups.Perm ai2.Groups) (hh : ai1.Hostvars.Perm ai2.Hostvars)
    (hng : (ai1.Groups.map Prod.fst).Nodup)
    (hnh : (ai1.Hostvars.map Prod.fst).Nodup)
    (hm : "_meta" ∉ ai1.Groups.map Prod.fst) :
    printInventoryOut ai1 = printInventoryOut ai2 := by
  suffices hsuff : marshal (inventoryToJValue ai1) = marshal (inventoryToJValue ai2) by
    unfold printInventoryOut
    rw [hsuff]
  have hhv : marshal (JValue.jobj true
      (ai1.Hostvars.map (fun p => (p.1, JValue.jobj true p.2)))) =
      marshal (JValue.jobj true
      (ai2.Hostvars.map (fun p => (p.1, JValue.jobj true p.2)))) := by
    apply marshal_jobj_map_perm _ _ (hh.map _)
    have hk : (ai1.Hostvars.map (fun p => (p.1, JValue.jobj true p.2))).map Prod.fst =
        ai1.Hostvars.map Prod.fst := by
      simp [List.map_map, Function.comp]
    rw [hk]
    exact hnh
  have hmeta : marshal (JValue.jobj false [("hostvars", JValue.jobj true
      (ai1.Hostvars.map (fun p => (p.1, JValue.jobj true p.2))))]) =
      marshal (JValue.jobj false [("hostvars", JValue.jobj true
      (ai2.Hostvars.map (fun p => (p.1, JValue.jobj true p.2))))]) := by
    apply marshal_jobj_congr
    apply marshalFields_congr
    exact List.Forall₂.cons ⟨rfl, hhv⟩ List.Forall₂.nil
  unfold inventoryToJValue
  exact printInventory_marshal_eq ai1.Groups ai2.Groups _ _ hg hng hm hmeta

/-- C8 witness: the same two groups and hostvars entries in swapped
iteration orders serialize to identical bytes. -/
theorem claim_serialization_deterministic_witness :
    printInventoryOut
        { Groups := [("do_nyc3", { Hosts := ["vps2"], Vars := [], Children := [] }),
                     ("do_web", { Hosts := ["vps2"], Vars := [], Children := [] })],
          Hostvars := [("vps2", [("ansible_host", JValue.jstr "1.2.3.4")]),
                       ("vps3", [])] } =
      printInventoryOut
        { Groups := [("do_web", { Hosts := ["vps2"], Vars := [], Children := [] }),
                     ("do_nyc3", { Hosts := ["vps2"], Vars := [], Children := [] })],
          Hostvars := [("vps3", []),
                       ("vps2", [("ansible_host", JValue.jstr "1.2.3.4")])] } :=
  claim_serialization_deterministic _ _
    (List.Perm.swap _ _ _) (List.Perm.swap _ _ _)
    (by decide) (by decide) (by decide)

end DoInv
